import Mathlib

/-!
Verification of the flat-file session store of TristanShz/flow.

Shallow embedding of `internal/infra/filesystem/session_fs_repository.go`:
a directory is a list of entries (name, is-directory flag, content); machine
time values are unbounded integers, with the `int64` range made explicit
where the Go code parses or formats timestamps; Go's fatal error paths
(`log.Fatal`) are modelled as `Except`/error results.
-/

deriving instance DecidableEq for Except

namespace Flow

/-- Embedding of Go `time.Time`: whole Unix seconds plus a nanosecond part.
`Unix()` projects out `sec`; `time.Unix(n, 0)` is `⟨n, 0⟩`. -/
structure Time where
  sec : Int
  nsec : Nat
deriving DecidableEq, Repr, Inhabited

/-- Embedding of Go `t.Before(u)`: lexicographic strict order on
(seconds, nanoseconds). -/
def timeBefore (a b : Time) : Bool :=
  decide (a.sec < b.sec ∨ (a.sec = b.sec ∧ a.nsec < b.nsec))

/-- The complement order `¬ timeBefore b a`, i.e. `a ≤ b` lexicographically. -/
def timeLe (a b : Time) : Bool :=
  decide (a.sec < b.sec ∨ (a.sec = b.sec ∧ a.nsec ≤ b.nsec))

theorem timeLe_iff_not_timeBefore (a b : Time) :
    timeLe a b = !timeBefore b a := by
  rcases a with ⟨as, an⟩
  rcases b with ⟨bs, bn⟩
  rw [Bool.eq_iff_iff]
  simp only [timeLe, timeBefore, Bool.not_eq_true', decide_eq_false_iff_not,
    decide_eq_true_eq]
  omega

theorem timeLe_total (a b : Time) : timeLe a b = true ∨ timeLe b a = true := by
  rcases a with ⟨as, an⟩
  rcases b with ⟨bs, bn⟩
  simp only [timeLe, decide_eq_true_eq]
  omega

theorem timeLe_trans {a b c : Time} (h1 : timeLe a b = true)
    (h2 : timeLe b c = true) : timeLe a c = true := by
  rcases a with ⟨as, an⟩
  rcases b with ⟨bs, bn⟩
  rcases c with ⟨cs, cn⟩
  simp only [timeLe, decide_eq_true_eq] at h1 h2 ⊢
  omega

/-- Modelled from the spec: the domain entity `session.Session`
(`internal/domain/session` is not under `src/`; the spec's data model §3
gives its fields: opaque string `id`, `startTime` timestamp, `project`
display name, ordered `tags`). -/
structure Session where
  id : String
  startTime : Time
  project : String
  tags : List String
deriving DecidableEq, Repr, Inhabited

/-- Embedding of the regex replacement `[^a-zA-Z0-9]+` → `""`:
keep exactly the ASCII letters and digits. -/
def stripNonAlnum (p : String) : String :=
  ⟨p.data.filter Char.isAlphanum⟩

/-- Embedding of the Go struct `SessionFilename`. -/
structure SessionFilename where
  startTime : Time
  id : String
  project : String
deriving DecidableEq, Repr, Inhabited

/-- Embedding of `SessionFilename.StrippedProject`. -/
def SessionFilename.StrippedProject (s : SessionFilename) : String :=
  stripNonAlnum s.project

/-- Decimal digits of a natural number, most significant first
(the core loop of Go `strconv.FormatInt`), with structural fuel: `fuel ≥ n`
always suffices, so the fuel-exhausted base case is never reached for the
fuel supplied by `natToDigits`. -/
def natToDigitsAux : Nat → Nat → List Char → List Char
  | 0, n, acc => Nat.digitChar (n % 10) :: acc
  | fuel + 1, n, acc =>
    if n < 10 then Nat.digitChar n :: acc
    else natToDigitsAux fuel (n / 10) (Nat.digitChar (n % 10) :: acc)

def natToDigits (n : Nat) : List Char :=
  natToDigitsAux n n []

/-- Embedding of Go `strconv.FormatInt(i, 10)` (as a character list). -/
def intToDecimalChars (i : Int) : List Char :=
  if i < 0 then '-' :: natToDigits (-i).toNat else natToDigits i.toNat

def jsonSuffix : List Char := ['.', 'j', 's', 'o', 'n']

/-- Embedding of the Go method `SessionFilename.String()`:
`Id + "-" + StrippedProject() + "-" + FormatInt(StartTime.Unix(), 10) + ".json"`. -/
def SessionFilename.toFileName (s : SessionFilename) : List Char :=
  s.id.data ++ '-' ::
    (s.StrippedProject.data ++ '-' ::
      (intToDecimalChars s.startTime.sec ++ jsonSuffix))

/-- Embedding of `getSessionFileName`. -/
def getSessionFileName (s : Session) : List Char :=
  SessionFilename.toFileName ⟨s.startTime, s.id, s.project⟩

/-- Embedding of Go `strings.Split(s, "-")` at the character level:
split on every occurrence of `'-'`; the result is always nonempty. -/
def splitChars : List Char → List (List Char)
  | [] => [[]]
  | c :: cs =>
    if c = '-' then [] :: splitChars cs
    else
      match splitChars cs with
      | [] => [[c]]
      | h :: t => (c :: h) :: t

/-- Embedding of Go `strings.TrimSuffix(s, ".json")`: drop the last five
characters when they are `.json`, otherwise return the input unchanged. -/
def trimSuffixJson (cs : List Char) : List Char :=
  if 5 ≤ cs.length ∧ cs.drop (cs.length - 5) = jsonSuffix then
    cs.take (cs.length - 5)
  else cs

/-- Digit accumulation used by Go `strconv.ParseInt`: all characters must be
ASCII digits and the list must be nonempty. -/
def goParseDigits (cs : List Char) : Option Nat :=
  if cs = [] then none
  else if cs.all Char.isDigit then
    some (cs.foldl (fun a c => a * 10 + (c.toNat - 48)) 0)
  else none

/-- Embedding of Go `strconv.ParseInt(s, 10, 64)`: an optional sign followed
by decimal digits, rejected when the value leaves the `int64` range. -/
def goParseInt64 (cs : List Char) : Option Int :=
  match cs with
  | [] => none
  | c :: rest =>
    if c = '-' then
      (goParseDigits rest).bind fun n =>
        if (n : Int) ≤ 2 ^ 63 then some (-(n : Int)) else none
    else if c = '+' then
      (goParseDigits rest).bind fun n =>
        if (n : Int) < 2 ^ 63 then some ((n : Int)) else none
    else
      (goParseDigits (c :: rest)).bind fun n =>
        if (n : Int) < 2 ^ 63 then some ((n : Int)) else none

/-- Error taxonomy of the store (spec §7). Go's `log.Fatal` exits are
modelled as returned errors. -/
inductive StoreError where
  | invalidFilename
  | notFound (id : String)
  | readError
  | writeError
  | invalidSessionData
deriving DecidableEq, Repr

/-- Embedding of `parseSessionFileName`: split on `-` into exactly three
parts, strip `.json` from the third and parse it as a base-10 `int64`. -/
def parseSessionFileName (name : List Char) : Except StoreError SessionFilename :=
  match splitChars name with
  | [id, project, third] =>
    match goParseInt64 (trimSuffixJson third) with
    | some n => .ok ⟨⟨n, 0⟩, ⟨id⟩, ⟨project⟩⟩
    | none => .error .invalidFilename
  | _ => .error .invalidFilename

/-- Modelled from the spec: the JSON body of a session file
(`encoding/json` over the domain struct, not under `src/`; spec §3 and §6
require the body to be the full lossless serialization of the Session and
to round-trip through the same encoder/decoder pair). A file body is
either the serialization of some session or unparsable data. -/
inductive FileContent where
  | sessionJSON (s : Session)
  | corrupt
deriving DecidableEq, Repr

/-- Modelled from the spec: `json.MarshalIndent` of a Session, lossless. -/
def serialize (s : Session) : FileContent := .sessionJSON s

/-- Embedding of `rawFileToSession` over the modelled body: `json.Unmarshal`
recovers exactly the serialized session, and fails on anything else. -/
def deserialize : FileContent → Option Session
  | .sessionJSON s => some s
  | .corrupt => none

/-- A directory entry as returned by `Readdir`: a name, the `IsDir` flag,
and (for plain files) the file's content. -/
structure DirEntry where
  name : List Char
  isDir : Bool
  content : FileContent
deriving DecidableEq, Repr

/-- Embedding of `os.ReadFile` on the flow folder: look the name up among
the entries; reading a directory or a missing name fails (`none`). -/
def readFile (dir : List DirEntry) (name : List Char) : Option FileContent :=
  match dir.find? (fun e => e.name = name) with
  | some e => if e.isDir then none else some e.content
  | none => none

/-- Embedding of `FindById`: walk the directory listing, skip directories,
parse every filename (a parse failure is `log.Fatal`, modelled as an error),
and on the first entry whose decoded id matches, read and deserialize that
file. -/
def FindById (dir : List DirEntry) (id : String) : Except StoreError (Option Session) :=
  match dir with
  | [] => .ok none
  | e :: rest =>
    if e.isDir then FindById rest id
    else
      match parseSessionFileName e.name with
      | .error err => .error err
      | .ok sf =>
        if sf.id = id then
          match deserialize e.content with
          | none => .error .invalidSessionData
          | some s => .ok (some s)
        else FindById rest id

/-- Embedding of `Save`: write the serialized session at the encoded
filename, silently overwriting an existing file of that name. The result
pairs the error (if any) with the directory state afterwards. -/
def Save (dir : List DirEntry) (s : Session) : Option StoreError × List DirEntry :=
  let name := getSessionFileName s
  match dir.find? (fun e => e.name = name) with
  | some e =>
    if e.isDir then (some .writeError, dir)
    else
      (none, dir.map fun e' =>
        if e'.name = name then { e' with content := serialize s } else e')
  | none => (none, dir ++ [⟨name, false, serialize s⟩])

/-- Embedding of `Delete`: walk the listing, skip directories, parse every
filename (failure is fatal and changes nothing), remove the first file whose
decoded id matches, and return `NotFound` when none does. The result pairs
the error (if any) with the directory state afterwards. -/
def Delete : List DirEntry → String → Option StoreError × List DirEntry
  | [], id => (some (.notFound id), [])
  | e :: rest, id =>
    if e.isDir then
      let r := Delete rest id
      (r.1, e :: r.2)
    else
      match parseSessionFileName e.name with
      | .error err => (some err, e :: rest)
      | .ok sf =>
        if sf.id = id then (none, rest)
        else
          let r := Delete rest id
          (r.1, e :: r.2)

/-- Modelled from the spec: `pkg/timerange.TimeRange` (not under `src/`);
spec §4.2/§6: an optional `since` and an optional `until` bound, with the
four states unbounded / since-only / until-only / both. -/
structure TimeRange where
  since : Option Time := none
  untilT : Option Time := none
deriving DecidableEq, Repr

/-- Modelled from the spec: `TimeRange.IsZero` — no bound is set. -/
def TimeRange.isZero (tr : TimeRange) : Bool :=
  tr.since.isNone && tr.untilT.isNone

/-- Modelled from the spec: `TimeRange.JustUntil`. -/
def TimeRange.justUntil (tr : TimeRange) : Bool :=
  tr.since.isNone && tr.untilT.isSome

/-- Modelled from the spec: `TimeRange.JustSince`. -/
def TimeRange.justSince (tr : TimeRange) : Bool :=
  tr.since.isSome && tr.untilT.isNone

/-- Modelled from the spec: `TimeRange.SinceAndUntil`. -/
def TimeRange.sinceAndUntil (tr : TimeRange) : Bool :=
  tr.since.isSome && tr.untilT.isSome

/-- Modelled from the spec: `application.SessionsFilters` (not under
`src/`); an optional project equality filter (empty string = absent) and an
optional time range (zero value = absent), as consumed by
`FindAllSessions`. -/
structure SessionsFilters where
  timerange : TimeRange := {}
  project : String := ""
deriving DecidableEq, Repr

/-- Embedding of `filterByProject`: parse every entry's filename (failure is
fatal) and keep the entries whose decoded project component equals the
`project` argument verbatim. -/
def filterByProject (entries : List DirEntry) (project : String) :
    Except StoreError (List DirEntry) :=
  match entries with
  | [] => .ok []
  | e :: rest =>
    match parseSessionFileName e.name with
    | .error err => .error err
    | .ok sf =>
      match filterByProject rest project with
      | .error err => .error err
      | .ok r => .ok (if sf.project = project then e :: r else r)

/-- Embedding of `filterByTimeRange`: parse every entry's filename (failure
is fatal) and keep the entries whose decoded start time lies strictly inside
the supplied bounds, following the `JustUntil` / `JustSince` /
`SinceAndUntil` / unbounded case split of the Go code. -/
def filterByTimeRange (entries : List DirEntry) (tr : TimeRange) :
    Except StoreError (List DirEntry) :=
  match entries with
  | [] => .ok []
  | e :: rest =>
    match parseSessionFileName e.name with
    | .error err => .error err
    | .ok sf =>
      match filterByTimeRange rest tr with
      | .error err => .error err
      | .ok r =>
        let keep : Bool :=
          if tr.justUntil then
            tr.untilT.elim false fun u => timeBefore sf.startTime u
          else if tr.justSince then
            tr.since.elim false fun s0 => timeBefore s0 sf.startTime
          else if tr.sinceAndUntil then
            (tr.since.elim false fun s0 => timeBefore s0 sf.startTime) &&
              (tr.untilT.elim false fun u => timeBefore sf.startTime u)
          else true
        .ok (if keep then e :: r else r)

/-- The filter stage of `FindAllSessions`: when filters are supplied, apply
the time-range filter when its range is nonzero, then the project filter
when its project is nonempty — in that order, as in the Go code. -/
def findAllApplyFilters (entries : List DirEntry) (f : SessionsFilters) :
    Except StoreError (List DirEntry) :=
  match (if f.timerange.isZero then .ok entries
         else filterByTimeRange entries f.timerange : Except StoreError (List DirEntry)) with
  | .error err => .error err
  | .ok fis =>
    if f.project = "" then .ok fis else filterByProject fis f.project

/-- The read loop of `FindAllSessions`: skip directories, read and
deserialize every remaining file (a deserialize failure is fatal). -/
def readSessions : List DirEntry → Except StoreError (List Session)
  | [] => .ok []
  | e :: rest =>
    if e.isDir then readSessions rest
    else
      match deserialize e.content with
      | none => .error .invalidSessionData
      | some s =>
        match readSessions rest with
        | .error err => .error err
        | .ok l => .ok (s :: l)

/-- Insertion step of the ascending sort performed by `sort.Sort(sessions)`
with `Less i j = s[i].StartTime.Before(s[j].StartTime)`. -/
def insertAsc (x : Session) : List Session → List Session
  | [] => [x]
  | y :: rest =>
    if timeBefore y.startTime x.startTime then y :: insertAsc x rest
    else x :: y :: rest

/-- The ascending-by-start-time sort of `FindAllSessions`. -/
def sortSessions : List Session → List Session
  | [] => []
  | x :: rest => insertAsc x (sortSessions rest)

/-- Embedding of `FindAllSessions`: list the directory, apply the optional
filename-level filters, then read, deserialize and sort the survivors. -/
def FindAllSessions (dir : List DirEntry) (filters : Option SessionsFilters) :
    Except StoreError (List Session) :=
  match (match filters with
         | none => .ok dir
         | some f => findAllApplyFilters dir f : Except StoreError (List DirEntry)) with
  | .error err => .error err
  | .ok fis =>
    match readSessions fis with
    | .error err => .error err
    | .ok sessions => .ok (sortSessions sessions)

/-- The decoded-filename collection loop of `FindLastSession`: skip
directories, parse every remaining filename (failure is fatal). -/
def collectFileNames : List DirEntry → Except StoreError (List SessionFilename)
  | [] => .ok []
  | e :: rest =>
    if e.isDir then collectFileNames rest
    else
      match parseSessionFileName e.name with
      | .error err => .error err
      | .ok sf =>
        match collectFileNames rest with
        | .error err => .error err
        | .ok l => .ok (sf :: l)

/-- Insertion step of the descending sort performed by `sort.Slice` with
`less i j = names[j].StartTime.Before(names[i].StartTime)`. -/
def insertDesc (x : SessionFilename) : List SessionFilename → List SessionFilename
  | [] => [x]
  | y :: rest =>
    if timeBefore x.startTime y.startTime then y :: insertDesc x rest
    else x :: y :: rest

/-- The descending-by-start-time sort of `FindLastSession`. -/
def sortFileNamesDesc : List SessionFilename → List SessionFilename
  | [] => []
  | x :: rest => insertDesc x (sortFileNamesDesc rest)

/-- Embedding of `FindLastSession`: decode all filenames without reading any
body, return `none` for an empty listing, otherwise sort the decoded records
descending by start time, re-encode the most recent record's filename, and
read and deserialize that single file. -/
def FindLastSession (dir : List DirEntry) : Except StoreError (Option Session) :=
  match collectFileNames dir with
  | .error err => .error err
  | .ok fileNames =>
    match sortFileNamesDesc fileNames with
    | [] => .ok none
    | last :: _ =>
      match readFile dir last.toFileName with
      | none => .error .readError
      | some content =>
        match deserialize content with
        | none => .error .invalidSessionData
        | some s => .ok (some s)

/-- Modelled from the spec: the start command (the start use case under
`internal/application/usecases/flowsession/start` has only its test under
`src/`); it carries a project and ordered tags. -/
structure StartCommand where
  project : String
  tags : List String
deriving DecidableEq, Repr

/-- Errors of the start use case. -/
inductive StartError where
  | alreadyStarted
  | store (e : StoreError)
deriving DecidableEq, Repr

/-- Modelled from the spec: the start use case (§4.4). Query the store for
the most recent session; if one exists and is still active (per the supplied
end-marker predicate `active`), fail with `SessionAlreadyStarted` and write
nothing; otherwise build a session from the generated id, the clock's `now`
and the command, and persist it via `Save`. The result pairs the outcome
with the directory state afterwards. -/
def start (dir : List DirEntry) (cmd : StartCommand) (genId : String)
    (now : Time) (active : Session → Bool) :
    Except StartError Session × List DirEntry :=
  match FindLastSession dir with
  | .error e => (.error (.store e), dir)
  | .ok last =>
    if (last.elim false active) then (.error .alreadyStarted, dir)
    else
      let s : Session := ⟨genId, now, cmd.project, cmd.tags⟩
      match Save dir s with
      | (none, dir') => (.ok s, dir')
      | (some e, dir') => (.error (.store e), dir')

/-! ### Specification-side helper predicates -/

/-- Whether a filename decodes successfully. -/
def parsesOk (name : List Char) : Bool :=
  match parseSessionFileName name with
  | .ok _ => true
  | .error _ => false

/-- The decoded id of a filename, when it decodes. -/
def decodedId (name : List Char) : Option String :=
  match parseSessionFileName name with
  | .ok sf => some sf.id
  | .error _ => none

/-- The decoded start time of a filename (arbitrary default when it does
not decode). -/
def decodedTime (name : List Char) : Time :=
  match parseSessionFileName name with
  | .ok sf => sf.startTime
  | .error _ => ⟨0, 0⟩

/-- Spec-side time-range predicate: strictly after `since` when set, and
strictly before `until` when set. -/
def timePass (t : Time) (tr : TimeRange) : Bool :=
  (match tr.since with
   | none => true
   | some s0 => timeBefore s0 t) &&
  (match tr.untilT with
   | none => true
   | some u => timeBefore t u)

/-- Whether an entry's decoded start time passes the time range. -/
def timeMatch (e : DirEntry) (tr : TimeRange) : Bool :=
  match parseSessionFileName e.name with
  | .ok sf => timePass sf.startTime tr
  | .error _ => false

/-- Whether an entry's decoded project component equals `p`. -/
def projMatch (e : DirEntry) (p : String) : Bool :=
  match parseSessionFileName e.name with
  | .ok sf => sf.project = p
  | .error _ => false

/-- Spec-side truncation of a session's start time to whole seconds, as
claimed of the save/findById round trip. -/
def truncateSession (s : Session) : Session :=
  { s with startTime := ⟨s.startTime.sec, 0⟩ }

/-- The first filter that `FindAllSessions` applies when filters are
supplied (extracted for stating claims about filter order). -/
def findAllFirstFilter (entries : List DirEntry) (f : SessionsFilters) :
    Except StoreError (List DirEntry) :=
  if f.timerange.isZero = false then filterByTimeRange entries f.timerange
  else if f.project ≠ "" then filterByProject entries f.project
  else .ok entries

/-! ### Lemmas about decimal formatting and parsing -/

theorem natToDigitsAux_acc (fuel n : Nat) (acc : List Char) :
    natToDigitsAux fuel n acc = natToDigitsAux fuel n [] ++ acc := by
  induction fuel generalizing n acc with
  | zero => rfl
  | succ fuel ih =>
    by_cases h : n < 10
    · rw [natToDigitsAux, if_pos h, natToDigitsAux, if_pos h]
      rfl
    · rw [natToDigitsAux, if_neg h, natToDigitsAux, if_neg h,
        ih (n / 10) (Nat.digitChar (n % 10) :: acc),
        ih (n / 10) (Nat.digitChar (n % 10) :: [])]
      simp

theorem natToDigitsAux_fuel {n : Nat} : ∀ {f1 f2 : Nat}, n ≤ f1 → n ≤ f2 →
    ∀ acc, natToDigitsAux f1 n acc = natToDigitsAux f2 n acc := by
  induction n using Nat.strong_induction_on with
  | _ n ih =>
    intro f1 f2 h1 h2 acc
    by_cases h : n < 10
    · have base : ∀ f, n ≤ f → natToDigitsAux f n acc = Nat.digitChar n :: acc := by
        intro f hf
        cases f with
        | zero =>
          have hn : n = 0 := by omega
          subst hn
          rfl
        | succ f => rw [natToDigitsAux, if_pos h]
      rw [base f1 h1, base f2 h2]
    · rcases f1 with _ | f1
      · omega
      rcases f2 with _ | f2
      · omega
      rw [natToDigitsAux, if_neg h, natToDigitsAux, if_neg h]
      exact ih (n / 10) (Nat.div_lt_self (by omega) (by omega)) (by omega)
        (by omega) _

theorem natToDigits_lt {n : Nat} (h : n < 10) :
    natToDigits n = [Nat.digitChar n] := by
  rw [natToDigits]
  cases n with
  | zero => rfl
  | succ m => rw [natToDigitsAux, if_pos h]

theorem natToDigits_ge {n : Nat} (h : ¬ n < 10) :
    natToDigits n = natToDigits (n / 10) ++ [Nat.digitChar (n % 10)] := by
  rcases n with _ | m
  · omega
  · rw [natToDigits, natToDigitsAux, if_neg h,
      natToDigitsAux_acc m ((m + 1) / 10),
      @natToDigitsAux_fuel ((m + 1) / 10) m ((m + 1) / 10) (by omega)
        (le_refl _)]
    rfl

theorem digitChar_isDigit {d : Nat} (h : d < 10) :
    (Nat.digitChar d).isDigit = true := by
  interval_cases d <;> decide

theorem digitChar_toNat {d : Nat} (h : d < 10) :
    (Nat.digitChar d).toNat - 48 = d := by
  interval_cases d <;> decide

theorem natToDigits_ne_nil (n : Nat) : natToDigits n ≠ [] := by
  by_cases h : n < 10
  · rw [natToDigits_lt h]; simp
  · rw [natToDigits_ge h]; simp

theorem natToDigits_all_digit (n : Nat) :
    (natToDigits n).all Char.isDigit = true := by
  induction n using Nat.strong_induction_on with
  | _ n ih =>
    by_cases h : n < 10
    · rw [natToDigits_lt h]
      simp [digitChar_isDigit h]
    · rw [natToDigits_ge h]
      have hlt : n / 10 < n := Nat.div_lt_self (by omega) (by omega)
      simp [List.all_append, ih (n / 10) hlt,
        digitChar_isDigit (Nat.mod_lt _ (by omega))]

theorem natToDigits_foldl (n : Nat) :
    (natToDigits n).foldl (fun a c => a * 10 + (c.toNat - 48)) 0 = n := by
  induction n using Nat.strong_induction_on with
  | _ n ih =>
    by_cases h : n < 10
    · rw [natToDigits_lt h]
      simp [digitChar_toNat h]
    · rw [natToDigits_ge h, List.foldl_append]
      have hlt : n / 10 < n := Nat.div_lt_self (by omega) (by omega)
      simp only [List.foldl_cons, List.foldl_nil]
      rw [ih (n / 10) hlt, digitChar_toNat (Nat.mod_lt _ (by omega))]
      omega

theorem goParseDigits_natToDigits (n : Nat) :
    goParseDigits (natToDigits n) = some n := by
  rw [goParseDigits, if_neg (natToDigits_ne_nil n), if_pos (natToDigits_all_digit n),
    natToDigits_foldl]

theorem natToDigits_not_dash (n : Nat) : '-' ∉ natToDigits n := by
  intro hmem
  have hall := natToDigits_all_digit n
  rw [List.all_eq_true] at hall
  exact absurd (hall _ hmem) (by decide)

theorem goParseInt64_not_sign (c : Char) (cs : List Char)
    (h1 : ¬ c = '-') (h2 : ¬ c = '+') :
    goParseInt64 (c :: cs) = (goParseDigits (c :: cs)).bind fun n =>
      if (n : Int) < 2 ^ 63 then some ((n : Int)) else none := by
  simp only [goParseInt64, if_neg h1, if_neg h2]

theorem goParseInt64_natToDigits (n : Nat) (h : (n : Int) < 2 ^ 63) :
    goParseInt64 (natToDigits n) = some ((n : Int)) := by
  rcases hnd : natToDigits n with _ | ⟨c, cs⟩
  · exact absurd hnd (natToDigits_ne_nil n)
  · have hdig : c.isDigit = true := by
      have hall := natToDigits_all_digit n
      rw [hnd, List.all_cons] at hall
      exact (Bool.and_eq_true_iff.mp hall).1
    have h1 : ¬ c = '-' := by
      intro hc; rw [hc] at hdig; exact absurd hdig (by decide)
    have h2 : ¬ c = '+' := by
      intro hc; rw [hc] at hdig; exact absurd hdig (by decide)
    rw [goParseInt64_not_sign c cs h1 h2, ← hnd, goParseDigits_natToDigits n,
      Option.some_bind', if_pos h]

/-! ### Lemmas about splitting and the filename codec -/

theorem splitChars_ne_nil (cs : List Char) : splitChars cs ≠ [] := by
  induction cs with
  | nil => simp [splitChars]
  | cons c cs ih =>
    by_cases h : c = '-'
    · simp [splitChars, h]
    · simp only [splitChars, if_neg h]
      rcases hs : splitChars cs with _ | ⟨hd, tl⟩ <;> simp

theorem splitChars_no_dash (cs : List Char) (h : '-' ∉ cs) :
    splitChars cs = [cs] := by
  induction cs with
  | nil => rfl
  | cons c cs ih =>
    have hc : ¬ c = '-' := fun hc => h (by simp [hc])
    have hcs : '-' ∉ cs := fun hm => h (by simp [hm])
    simp only [splitChars, if_neg hc, ih hcs]

theorem splitChars_append_dash (xs ys : List Char) (h : '-' ∉ xs) :
    splitChars (xs ++ '-' :: ys) = xs :: splitChars ys := by
  induction xs with
  | nil => simp [splitChars]
  | cons x xs ih =>
    have hx : ¬ x = '-' := fun hc => h (by simp [hc])
    have hxs : '-' ∉ xs := fun hm => h (by simp [hm])
    simp only [List.cons_append, splitChars, if_neg hx, List.append_eq, ih hxs]

theorem splitChars_length (cs : List Char) :
    (splitChars cs).length = cs.count '-' + 1 := by
  induction cs with
  | nil => simp [splitChars]
  | cons c cs ih =>
    by_cases h : c = '-'
    · subst h
      rw [splitChars, if_pos rfl]
      simp only [List.length_cons, ih, List.count_cons_self]
    · simp only [splitChars, if_neg h]
      rcases hs : splitChars cs with _ | ⟨hd, tl⟩
      · exact absurd hs (splitChars_ne_nil cs)
      · rw [hs] at ih
        have hcount : (c :: cs).count '-' = cs.count '-' := by
          simp [List.count_cons, h]
        rw [hcount]
        simp only [List.length_cons] at ih ⊢
        omega

theorem trimSuffixJson_append (xs : List Char) :
    trimSuffixJson (xs ++ jsonSuffix) = xs := by
  have hlen : (xs ++ jsonSuffix).length = xs.length + 5 := by
    simp [jsonSuffix]
  have hsub : (xs ++ jsonSuffix).length - 5 = xs.length := by omega
  rw [trimSuffixJson, if_pos]
  · rw [hsub, List.take_left]
  · exact ⟨by omega, by rw [hsub, List.drop_left]⟩

theorem parseSessionFileName_three (name a b c : List Char)
    (h : splitChars name = [a, b, c]) :
    parseSessionFileName name =
      match goParseInt64 (trimSuffixJson c) with
      | some n => .ok ⟨⟨n, 0⟩, ⟨a⟩, ⟨b⟩⟩
      | none => .error .invalidFilename := by
  rw [parseSessionFileName, h]

theorem parseSessionFileName_not_three (name : List Char)
    (h : (splitChars name).length ≠ 3) :
    parseSessionFileName name = .error .invalidFilename := by
  rcases hs : splitChars name with _ | ⟨a, _ | ⟨b, _ | ⟨c, _ | ⟨d, t⟩⟩⟩⟩ <;>
    rw [parseSessionFileName, hs]
  all_goals
    first
      | rfl
      | (rw [hs] at h; simp at h)

theorem stripNonAlnum_not_dash (p : String) : '-' ∉ (stripNonAlnum p).data := by
  intro hmem
  rw [stripNonAlnum] at hmem
  have := List.of_mem_filter hmem
  exact absurd this (by decide)

theorem jsonSuffix_not_dash : '-' ∉ jsonSuffix := by decide

theorem StrippedProject_not_dash (sf : SessionFilename) :
    '-' ∉ sf.StrippedProject.data :=
  stripNonAlnum_not_dash sf.project

/-- Round trip of the filename codec: a filename encoded from an id without
`-` and a nonnegative `int64` start time decodes to the id, the sanitized
project and the whole-second start time. -/
theorem parse_toFileName (sf : SessionFilename)
    (hid : '-' ∉ sf.id.data) (h0 : 0 ≤ sf.startTime.sec)
    (hlt : sf.startTime.sec < 2 ^ 63) :
    parseSessionFileName sf.toFileName =
      .ok ⟨⟨sf.startTime.sec, 0⟩, sf.id, sf.StrippedProject⟩ := by
  have hint : intToDecimalChars sf.startTime.sec =
      natToDigits sf.startTime.sec.toNat := by
    rw [intToDecimalChars, if_neg (by omega)]
  have hthird : '-' ∉ natToDigits sf.startTime.sec.toNat ++ jsonSuffix := by
    intro hmem
    rcases List.mem_append.mp hmem with hm | hm
    · exact natToDigits_not_dash _ hm
    · exact jsonSuffix_not_dash hm
  have hsplit : splitChars sf.toFileName =
      [sf.id.data, sf.StrippedProject.data,
        natToDigits sf.startTime.sec.toNat ++ jsonSuffix] := by
    rw [SessionFilename.toFileName, hint,
      splitChars_append_dash _ _ hid,
      splitChars_append_dash _ _ (StrippedProject_not_dash sf),
      splitChars_no_dash _ hthird]
  rw [parseSessionFileName_three _ _ _ _ hsplit, trimSuffixJson_append,
    goParseInt64_natToDigits _ (by omega)]
  simp [Int.toNat_of_nonneg h0]

/-- A filename encoded from an id that contains `-` never decodes: the
three-way split sees too many parts. -/
theorem parse_toFileName_dash (sf : SessionFilename) (hid : '-' ∈ sf.id.data) :
    parseSessionFileName sf.toFileName = .error .invalidFilename := by
  apply parseSessionFileName_not_three
  rw [splitChars_length]
  have h1 : 1 ≤ sf.id.data.count '-' := List.count_pos_iff.mpr hid
  have h2 : 3 ≤ sf.toFileName.count '-' := by
    rw [SessionFilename.toFileName]
    simp only [List.count_append, List.count_cons_self, List.count_cons]
    omega
  omega

/-! ### Lemmas about the filename-level filters -/

theorem parsesOk_true {name : List Char} (h : parsesOk name = true) :
    ∃ sf, parseSessionFileName name = .ok sf := by
  rcases hp : parseSessionFileName name with err | sf
  · rw [parsesOk, hp] at h
    simp at h
  · exact ⟨sf, rfl⟩

theorem projMatch_of_parse {e : DirEntry} {sf : SessionFilename} (p : String)
    (hp : parseSessionFileName e.name = .ok sf) :
    projMatch e p = decide (sf.project = p) := by
  rw [projMatch, hp]

theorem timeMatch_of_parse {e : DirEntry} {sf : SessionFilename} (tr : TimeRange)
    (hp : parseSessionFileName e.name = .ok sf) :
    timeMatch e tr = timePass sf.startTime tr := by
  rw [timeMatch, hp]

theorem filterByProject_eq (entries : List DirEntry) (p : String)
    (h : ∀ e ∈ entries, parsesOk e.name = true) :
    filterByProject entries p = .ok (entries.filter fun e => projMatch e p) := by
  induction entries with
  | nil => rfl
  | cons e rest ih =>
    obtain ⟨sf, hp⟩ := parsesOk_true (h e (List.mem_cons_self e rest))
    rw [filterByProject, hp, ih (fun x hx => h x (List.mem_cons_of_mem e hx))]
    rw [List.filter_cons, projMatch_of_parse p hp]
    by_cases hm : sf.project = p <;> simp [hm]

theorem keepTimeRange_eq (sf : SessionFilename) (tr : TimeRange) :
    (if tr.justUntil then
       tr.untilT.elim false fun u => timeBefore sf.startTime u
     else if tr.justSince then
       tr.since.elim false fun s0 => timeBefore s0 sf.startTime
     else if tr.sinceAndUntil then
       (tr.since.elim false fun s0 => timeBefore s0 sf.startTime) &&
         (tr.untilT.elim false fun u => timeBefore sf.startTime u)
     else true) = timePass sf.startTime tr := by
  rcases tr with ⟨_ | s0, _ | u⟩ <;>
    simp [TimeRange.justUntil, TimeRange.justSince, TimeRange.sinceAndUntil,
      timePass, Option.elim]

theorem filterByTimeRange_eq (entries : List DirEntry) (tr : TimeRange)
    (h : ∀ e ∈ entries, parsesOk e.name = true) :
    filterByTimeRange entries tr = .ok (entries.filter fun e => timeMatch e tr) := by
  induction entries with
  | nil => rfl
  | cons e rest ih =>
    obtain ⟨sf, hp⟩ := parsesOk_true (h e (List.mem_cons_self e rest))
    rw [filterByTimeRange, hp, ih (fun x hx => h x (List.mem_cons_of_mem e hx))]
    dsimp only
    rw [keepTimeRange_eq sf tr, List.filter_cons, timeMatch_of_parse tr hp]

theorem filterByProject_error (entries : List DirEntry) (p : String)
    (h : ∃ e ∈ entries, parsesOk e.name = false) :
    ∃ err, filterByProject entries p = .error err := by
  induction entries with
  | nil => simp at h
  | cons e rest ih =>
    rcases h with ⟨x, hx, hbad⟩
    rcases List.mem_cons.mp hx with rfl | hxr
    · rcases hp : parseSessionFileName x.name with err | sf
      · exact ⟨err, by rw [filterByProject, hp]⟩
      · rw [parsesOk, hp] at hbad
        simp at hbad
    · rcases hp : parseSessionFileName e.name with err | sf
      · exact ⟨err, by rw [filterByProject, hp]⟩
      · obtain ⟨err, herr⟩ := ih ⟨x, hxr, hbad⟩
        exact ⟨err, by rw [filterByProject, hp, herr]⟩

theorem filterByTimeRange_error (entries : List DirEntry) (tr : TimeRange)
    (h : ∃ e ∈ entries, parsesOk e.name = false) :
    ∃ err, filterByTimeRange entries tr = .error err := by
  induction entries with
  | nil => simp at h
  | cons e rest ih =>
    rcases h with ⟨x, hx, hbad⟩
    rcases List.mem_cons.mp hx with rfl | hxr
    · rcases hp : parseSessionFileName x.name with err | sf
      · exact ⟨err, by rw [filterByTimeRange, hp]⟩
      · rw [parsesOk, hp] at hbad
        simp at hbad
    · rcases hp : parseSessionFileName e.name with err | sf
      · exact ⟨err, by rw [filterByTimeRange, hp]⟩
      · obtain ⟨err, herr⟩ := ih ⟨x, hxr, hbad⟩
        exact ⟨err, by rw [filterByTimeRange, hp, herr]⟩

/-! ### Lemmas about the two sorts -/

theorem timeLe_refl (a : Time) : timeLe a a = true := by
  simp [timeLe]

theorem timeLe_of_timeBefore {a b : Time} (h : timeBefore a b = true) :
    timeLe a b = true := by
  rw [timeBefore, decide_eq_true_eq] at h
  rw [timeLe, decide_eq_true_eq]
  omega

theorem timeLe_of_not_timeBefore {a b : Time} (h : ¬ timeBefore b a = true) :
    timeLe a b = true := by
  rw [timeBefore, decide_eq_true_eq] at h
  rw [timeLe, decide_eq_true_eq]
  omega

theorem mem_insertAsc {x z : Session} {l : List Session} :
    z ∈ insertAsc x l ↔ z = x ∨ z ∈ l := by
  induction l with
  | nil => simp [insertAsc]
  | cons y rest ih =>
    rw [insertAsc]
    split <;> simp only [List.mem_cons, ih] <;> tauto

theorem insertAsc_sorted (x : Session) (l : List Session)
    (hl : l.Pairwise fun a b => timeLe a.startTime b.startTime = true) :
    (insertAsc x l).Pairwise fun a b => timeLe a.startTime b.startTime = true := by
  induction l with
  | nil => simp [insertAsc]
  | cons y rest ih =>
    rw [List.pairwise_cons] at hl
    rw [insertAsc]
    split
    · rename_i hb
      rw [List.pairwise_cons]
      refine ⟨fun z hz => ?_, ih hl.2⟩
      rcases mem_insertAsc.mp hz with rfl | hzr
      · exact timeLe_of_timeBefore hb
      · exact hl.1 z hzr
    · rename_i hb
      rw [List.pairwise_cons]
      refine ⟨fun z hz => ?_, List.pairwise_cons.mpr hl⟩
      rcases List.mem_cons.mp hz with rfl | hzr
      · exact timeLe_of_not_timeBefore hb
      · exact timeLe_trans (timeLe_of_not_timeBefore hb) (hl.1 z hzr)

theorem sortSessions_sorted (l : List Session) :
    (sortSessions l).Pairwise fun a b => timeLe a.startTime b.startTime = true := by
  induction l with
  | nil => simp [sortSessions]
  | cons x rest ih => exact insertAsc_sorted x (sortSessions rest) ih

theorem mem_insertDesc {x z : SessionFilename} {l : List SessionFilename} :
    z ∈ insertDesc x l ↔ z = x ∨ z ∈ l := by
  induction l with
  | nil => simp [insertDesc]
  | cons y rest ih =>
    rw [insertDesc]
    split <;> simp only [List.mem_cons, ih] <;> tauto

theorem insertDesc_sorted (x : SessionFilename) (l : List SessionFilename)
    (hl : l.Pairwise fun a b => timeLe b.startTime a.startTime = true) :
    (insertDesc x l).Pairwise fun a b => timeLe b.startTime a.startTime = true := by
  induction l with
  | nil => simp [insertDesc]
  | cons y rest ih =>
    rw [List.pairwise_cons] at hl
    rw [insertDesc]
    split
    · rename_i hb
      rw [List.pairwise_cons]
      refine ⟨fun z hz => ?_, ih hl.2⟩
      rcases mem_insertDesc.mp hz with rfl | hzr
      · exact timeLe_of_timeBefore hb
      · exact hl.1 z hzr
    · rename_i hb
      rw [List.pairwise_cons]
      refine ⟨fun z hz => ?_, List.pairwise_cons.mpr hl⟩
      rcases List.mem_cons.mp hz with rfl | hzr
      · exact timeLe_of_not_timeBefore hb
      · exact timeLe_trans (hl.1 z hzr) (timeLe_of_not_timeBefore hb)

theorem sortFileNamesDesc_sorted (l : List SessionFilename) :
    (sortFileNamesDesc l).Pairwise fun a b => timeLe b.startTime a.startTime = true := by
  induction l with
  | nil => simp [sortFileNamesDesc]
  | cons x rest ih => exact insertDesc_sorted x (sortFileNamesDesc rest) ih

theorem mem_sortFileNamesDesc {z : SessionFilename} {l : List SessionFilename} :
    z ∈ sortFileNamesDesc l ↔ z ∈ l := by
  induction l with
  | nil => simp [sortFileNamesDesc]
  | cons x rest ih =>
    rw [sortFileNamesDesc, mem_insertDesc, ih]
    simp

theorem sortFileNamesDesc_head_max {l : List SessionFilename}
    {x : SessionFilename} {t : List SessionFilename}
    (h : sortFileNamesDesc l = x :: t) :
    ∀ y ∈ l, timeLe y.startTime x.startTime = true := by
  intro y hy
  have hmem : y ∈ x :: t := h ▸ mem_sortFileNamesDesc.mpr hy
  rcases List.mem_cons.mp hmem with rfl | hyt
  · exact timeLe_refl _
  · have hs := sortFileNamesDesc_sorted l
    rw [h, List.pairwise_cons] at hs
    exact hs.1 y hyt

theorem sortFileNamesDesc_eq_nil {l : List SessionFilename}
    (h : sortFileNamesDesc l = []) : l = [] := by
  cases l with
  | nil => rfl
  | cons x rest =>
    exfalso
    have : x ∈ sortFileNamesDesc (x :: rest) := by
      rw [mem_sortFileNamesDesc]
      simp
    rw [h] at this
    simp at this

/-! ### Lemmas about the store operations -/

theorem decodedId_of_parse {e : DirEntry} {sf : SessionFilename}
    (hp : parseSessionFileName e.name = .ok sf) :
    decodedId e.name = some sf.id := by
  rw [decodedId, hp]

theorem decodedTime_of_parse {e : DirEntry} {sf : SessionFilename}
    (hp : parseSessionFileName e.name = .ok sf) :
    decodedTime e.name = sf.startTime := by
  rw [decodedTime, hp]

/-- `FindById` walks past a prefix of entries that are directories or whose
decoded id differs from the requested one. -/
theorem FindById_append (pre rest : List DirEntry) (id : String)
    (h : ∀ e ∈ pre, e.isDir = false →
      parsesOk e.name = true ∧ decodedId e.name ≠ some id) :
    FindById (pre ++ rest) id = FindById rest id := by
  induction pre with
  | nil => rfl
  | cons e pr ih =>
    rcases hd : e.isDir with _ | _
    · obtain ⟨hok, hne⟩ := h e (List.mem_cons_self e pr) hd
      obtain ⟨sf, hp⟩ := parsesOk_true hok
      have hsf : ¬ sf.id = id := by
        intro hc
        exact hne (by rw [decodedId_of_parse hp, hc])
      rw [List.cons_append, FindById, if_neg (by simp [hd]), hp]
      dsimp only
      rw [if_neg hsf]
      exact ih fun x hx => h x (List.mem_cons_of_mem e hx)
    · rw [List.cons_append, FindById, if_pos (by simp [hd])]
      exact ih fun x hx => h x (List.mem_cons_of_mem e hx)

theorem FindById_nil (id : String) : FindById [] id = .ok none := rfl

/-- `FindById` on a single matching, deserializable file entry. -/
theorem FindById_single {e : DirEntry} {sf : SessionFilename} {s : Session}
    {id : String}
    (hd : e.isDir = false) (hp : parseSessionFileName e.name = .ok sf)
    (hm : sf.id = id) (hc : deserialize e.content = some s) :
    FindById [e] id = .ok (some s) := by
  rw [FindById, if_neg (by simp [hd]), hp]
  dsimp only
  rw [if_pos hm, hc]

/-- `Save` of a session whose encoded filename is fresh appends exactly one
new file entry. -/
theorem Save_fresh (dir : List DirEntry) (s : Session)
    (h : ∀ e ∈ dir, e.name ≠ getSessionFileName s) :
    Save dir s =
      (none, dir ++ [⟨getSessionFileName s, false, serialize s⟩]) := by
  rw [Save]
  have hf : dir.find? (fun e => e.name = getSessionFileName s) = none := by
    rw [List.find?_eq_none]
    intro x hx
    simp [h x hx]
  rw [hf]

/-- `Delete` on a listing whose decodable non-directory entries never match
the id returns `NotFound` and leaves the state unchanged. -/
theorem Delete_notFound (dir : List DirEntry) (id : String)
    (h : ∀ e ∈ dir, e.isDir = false →
      parsesOk e.name = true ∧ decodedId e.name ≠ some id) :
    Delete dir id = (some (.notFound id), dir) := by
  induction dir with
  | nil => rfl
  | cons e rest ih =>
    rcases hd : e.isDir with _ | _
    · obtain ⟨hok, hne⟩ := h e (List.mem_cons_self e rest) hd
      obtain ⟨sf, hp⟩ := parsesOk_true hok
      have hsf : ¬ sf.id = id := by
        intro hc
        exact hne (by rw [decodedId_of_parse hp, hc])
      rw [Delete, if_neg (by simp [hd]), hp]
      dsimp only
      rw [if_neg hsf, ih fun x hx => h x (List.mem_cons_of_mem e hx)]
    · rw [Delete, if_pos (by simp [hd]),
        ih fun x hx => h x (List.mem_cons_of_mem e hx)]

/-- `Delete` removes exactly the first matching file when the entries before
it are directories or decodable non-matching files. -/
theorem Delete_found (pre post : List DirEntry) (e : DirEntry) (id : String)
    (hpre : ∀ x ∈ pre, x.isDir = false →
      parsesOk x.name = true ∧ decodedId x.name ≠ some id)
    (hd : e.isDir = false) (hm : decodedId e.name = some id) :
    Delete (pre ++ e :: post) id = (none, pre ++ post) := by
  induction pre with
  | nil =>
    obtain ⟨sf, hp⟩ : ∃ sf, parseSessionFileName e.name = .ok sf := by
      rw [decodedId] at hm
      rcases hq : parseSessionFileName e.name with err | sf
      · rw [hq] at hm
        simp at hm
      · exact ⟨sf, rfl⟩
    have hsf : sf.id = id := by
      rw [decodedId_of_parse hp] at hm
      exact Option.some_injective _ hm
    rw [List.nil_append, Delete, if_neg (by simp [hd]), hp]
    dsimp only
    rw [if_pos hsf, List.nil_append]
  | cons x pr ih =>
    rcases hxd : x.isDir with _ | _
    · obtain ⟨hok, hne⟩ := hpre x (List.mem_cons_self x pr) hxd
      obtain ⟨sf, hp⟩ := parsesOk_true hok
      have hsf : ¬ sf.id = id := by
        intro hc
        exact hne (by rw [decodedId_of_parse hp, hc])
      rw [List.cons_append, Delete, if_neg (by simp [hxd]), hp]
      dsimp only
      rw [if_neg hsf, ih fun y hy => hpre y (List.mem_cons_of_mem x hy)]
      simp
    · rw [List.cons_append, Delete, if_pos (by simp [hxd]),
        ih fun y hy => hpre y (List.mem_cons_of_mem x hy)]
      simp

/-- `readSessions` succeeds when every non-directory entry deserializes. -/
theorem readSessions_ok (entries : List DirEntry)
    (h : ∀ e ∈ entries, e.isDir = false → deserialize e.content ≠ none) :
    ∃ l, readSessions entries = .ok l := by
  induction entries with
  | nil => exact ⟨[], rfl⟩
  | cons e rest ih =>
    obtain ⟨l, hl⟩ := ih fun x hx => h x (List.mem_cons_of_mem e hx)
    rcases hd : e.isDir with _ | _
    · rcases hc : deserialize e.content with _ | s
      · exact absurd hc (h e (List.mem_cons_self e rest) hd)
      · exact ⟨s :: l, by rw [readSessions, if_neg (by simp [hd]), hc, hl]⟩
    · exact ⟨l, by rw [readSessions, if_pos (by simp [hd]), hl]⟩

/-- `collectFileNames` on a listing whose non-directory entries all decode:
it succeeds, and the collected records are exactly the decodings of the
non-directory entries. -/
theorem collectFileNames_ok (dir : List DirEntry)
    (h : ∀ e ∈ dir, e.isDir = false → parsesOk e.name = true) :
    ∃ fns, collectFileNames dir = .ok fns ∧
      (∀ sf ∈ fns, ∃ e ∈ dir, e.isDir = false ∧
        parseSessionFileName e.name = .ok sf) ∧
      (∀ e ∈ dir, e.isDir = false →
        ∀ sf, parseSessionFileName e.name = .ok sf → sf ∈ fns) ∧
      (fns = [] → ∀ e ∈ dir, e.isDir = true) := by
  induction dir with
  | nil => exact ⟨[], rfl, by simp, by simp, by simp⟩
  | cons e rest ih =>
    obtain ⟨fns, hok, hsound, hcomplete, hempty⟩ :=
      ih fun x hx => h x (List.mem_cons_of_mem e hx)
    rcases hd : e.isDir with _ | _
    · obtain ⟨sf, hp⟩ := parsesOk_true (h e (List.mem_cons_self e rest) hd)
      refine ⟨sf :: fns, ?_, ?_, ?_, ?_⟩
      · rw [collectFileNames, if_neg (by simp [hd]), hp]
        dsimp only
        rw [hok]
      · intro x hx
        rcases List.mem_cons.mp hx with rfl | hxf
        · exact ⟨e, List.mem_cons_self e rest, hd, hp⟩
        · obtain ⟨e', he', hd', hp'⟩ := hsound x hxf
          exact ⟨e', List.mem_cons_of_mem e he', hd', hp'⟩
      · intro x hx hxd sf' hp'
        rcases List.mem_cons.mp hx with rfl | hxr
        · rw [hp] at hp'
          injection hp' with hinj
          rw [← hinj]
          exact List.mem_cons_self sf fns
        · exact List.mem_cons_of_mem sf (hcomplete x hxr hxd sf' hp')
      · intro hnil
        simp at hnil
    · refine ⟨fns, ?_, ?_, ?_, ?_⟩
      · rw [collectFileNames, if_pos (by simp [hd]), hok]
      · intro x hx
        obtain ⟨e', he', hd', hp'⟩ := hsound x hx
        exact ⟨e', List.mem_cons_of_mem e he', hd', hp'⟩
      · intro x hx hxd sf' hp'
        rcases List.mem_cons.mp hx with rfl | hxr
        · rw [hxd] at hd
          cases hd
        · exact hcomplete x hxr hxd sf' hp'
      · intro hnil x hx
        rcases List.mem_cons.mp hx with rfl | hxr
        · exact hd
        · exact hempty hnil x hxr

/-- Reading the name of a listed plain file (with the real-directory
invariant that names are distinct) returns that file's content. -/
theorem readFile_mem {dir : List DirEntry} {e : DirEntry}
    (hnd : (dir.map DirEntry.name).Nodup) (he : e ∈ dir)
    (hd : e.isDir = false) :
    readFile dir e.name = some e.content := by
  induction dir with
  | nil => simp at he
  | cons x rest ih =>
    rw [List.map_cons, List.nodup_cons] at hnd
    rcases List.mem_cons.mp he with rfl | her
    · rw [readFile, List.find?_cons_of_pos _ (by simp)]
      dsimp only
      rw [if_neg (by simp [hd])]
    · have hxne : ¬ (x.name = e.name) := by
        intro hc
        apply hnd.1
        rw [hc]
        exact List.mem_map_of_mem DirEntry.name her
      rw [readFile, List.find?_cons_of_neg _ (by simp [hxne])]
      exact ih hnd.2 her

/-- `FindById` returns "not found" when no decodable non-directory entry
matches the id. -/
theorem FindById_none (dir : List DirEntry) (id : String)
    (h : ∀ e ∈ dir, e.isDir = false →
      parsesOk e.name = true ∧ decodedId e.name ≠ some id) :
    FindById dir id = .ok none := by
  have happ := FindById_append dir [] id h
  rw [List.append_nil] at happ
  rw [happ]
  rfl

/-- A canonical filename: it decodes, and re-encoding the decoded record
yields the name itself (true of every name written by `Save`). -/
def canonicalName (name : List Char) : Bool :=
  match parseSessionFileName name with
  | .ok sf => sf.toFileName = name
  | .error _ => false

theorem canonicalName_true {name : List Char} (h : canonicalName name = true) :
    ∃ sf, parseSessionFileName name = .ok sf ∧ sf.toFileName = name := by
  rcases hp : parseSessionFileName name with err | sf
  · rw [canonicalName, hp] at h
    simp at h
  · rw [canonicalName, hp] at h
    exact ⟨sf, rfl, by simpa using h⟩

theorem parsesOk_of_canonical {name : List Char}
    (h : canonicalName name = true) : parsesOk name = true := by
  obtain ⟨sf, hp, _⟩ := canonicalName_true h
  rw [parsesOk, hp]

/-- The filter stage of `FindAllSessions` fails whenever a filter is
supplied and some listed entry (directories included) does not decode. -/
theorem findAllApplyFilters_error (dir : List DirEntry) (f : SessionsFilters)
    (hsup : f.timerange.isZero = false ∨ f.project ≠ "")
    (hbad : ∃ e ∈ dir, parsesOk e.name = false) :
    ∃ err, findAllApplyFilters dir f = .error err := by
  by_cases hz : f.timerange.isZero = true
  · have hp : f.project ≠ "" := by
      rcases hsup with hsup | hsup
      · rw [hz] at hsup
        cases hsup
      · exact hsup
    obtain ⟨err, herr⟩ := filterByProject_error dir f.project hbad
    refine ⟨err, ?_⟩
    rw [findAllApplyFilters.eq_def, if_pos hz]
    dsimp only
    rw [if_neg hp, herr]
  · obtain ⟨err, herr⟩ := filterByTimeRange_error dir f.timerange hbad
    refine ⟨err, ?_⟩
    rw [findAllApplyFilters.eq_def, if_neg hz, herr]

/-- Every successful `FindAllSessions` result is the ascending sort of some
list of deserialized sessions. -/
theorem sortShape_aux {fis : List DirEntry} {l : List Session}
    (h : (match readSessions fis with
      | Except.error err => Except.error err
      | Except.ok sessions => Except.ok (sortSessions sessions)) =
        Except.ok l) :
    ∃ sessions, l = sortSessions sessions := by
  rcases hr : readSessions fis with err | sessions <;>
    rw [hr] at h <;> dsimp only at h
  · exact Except.noConfusion h
  · injection h with h2
    exact ⟨sessions, h2.symm⟩

theorem FindAllSessions_ok_shape {dir : List DirEntry}
    {filters : Option SessionsFilters} {l : List Session}
    (h : FindAllSessions dir filters = .ok l) :
    ∃ sessions, l = sortSessions sessions := by
  cases filters with
  | none =>
    rw [FindAllSessions.eq_def] at h
    dsimp only at h
    exact sortShape_aux h
  | some f =>
    rw [FindAllSessions.eq_def] at h
    dsimp only at h
    rcases hf : findAllApplyFilters dir f with err | fis <;>
      rw [hf] at h <;> dsimp only at h
    · exact Except.noConfusion h
    · exact sortShape_aux h

/-! ### Concrete fixtures for witnesses and counterexamples -/

def sessionAt (id : String) (sec : Int) (project : String) : Session :=
  ⟨id, ⟨sec, 0⟩, project, []⟩

/-- The file a `Save` of `s` writes: canonical name, serialized body. -/
def entryOf (s : Session) : DirEntry :=
  ⟨getSessionFileName s, false, serialize s⟩

def e10 : DirEntry := entryOf (sessionAt "a" 10 "P")

def e20 : DirEntry := entryOf (sessionAt "b" 20 "P")

def e30 : DirEntry := entryOf (sessionAt "c" 30 "P")

/-! ### The claims -/

/-- C2 counterexample: this entry's decoded sanitized-project component is
`MyProject`, which equals the sanitization of `My Project`, yet
`filterByProject` with the raw argument `My Project` drops it: the filter
compares the component against the argument verbatim and never sanitizes
the argument, so the claim's "equals the sanitization of p" reading fails
at this input. -/
theorem claim_C2_counterexample :
    projMatch (entryOf (sessionAt "a" 5 "My Project"))
      (stripNonAlnum "My Project") = true ∧
    filterByProject [entryOf (sessionAt "a" 5 "My Project")] "My Project" =
      .ok [] ∧
    filterByProject [entryOf (sessionAt "a" 5 "My Project")]
      (stripNonAlnum "My Project") =
      .ok [entryOf (sessionAt "a" 5 "My Project")] :=
  ⟨by decide, by decide, by decide⟩

/-- C2 (amended): for decodable entries, `filterByProject` keeps exactly
those entries whose decoded sanitized-project filename component equals the
argument `p` verbatim — the argument is not sanitized, so filtering by a
project name containing non-alphanumeric characters does not select the
sessions saved under that project; filtering by the already-sanitized name
does. -/
theorem claim_C2_filterByProject (entries : List DirEntry) (p : String)
    (h : ∀ e ∈ entries, parsesOk e.name = true) :
    filterByProject entries p =
      .ok (entries.filter fun e => projMatch e p) :=
  filterByProject_eq entries p h

theorem claim_C2_filterByProject_witness :
    filterByProject [e10, e20] "P" = .ok [e10, e20] ∧
    filterByProject [e10, e20] "Q" = .ok [] :=
  ⟨(claim_C2_filterByProject [e10, e20] "P" (by decide)).trans (by decide),
   (claim_C2_filterByProject [e10, e20] "Q" (by decide)).trans (by decide)⟩

/-- C4: for decodable entries the time-range filter keeps exactly the
entries whose decoded start time is strictly after `since` (when set) and
strictly before `until` (when set) — both bounds exclusive, all four range
states covered by the predicate `timePass` inside `timeMatch`. -/
theorem claim_C4_timeRange (entries : List DirEntry) (tr : TimeRange)
    (h : ∀ e ∈ entries, parsesOk e.name = true) :
    filterByTimeRange entries tr =
      .ok (entries.filter fun e => timeMatch e tr) :=
  filterByTimeRange_eq entries tr h

theorem claim_C4_timeRange_witness :
    filterByTimeRange [e10, e20, e30] ⟨none, some ⟨25, 0⟩⟩ = .ok [e10, e20] ∧
    filterByTimeRange [e10, e20, e30] ⟨some ⟨15, 0⟩, none⟩ = .ok [e20, e30] ∧
    filterByTimeRange [e10, e20, e30] ⟨some ⟨15, 0⟩, some ⟨25, 0⟩⟩ =
      .ok [e20] ∧
    filterByTimeRange [e10, e20, e30] ⟨none, none⟩ = .ok [e10, e20, e30] :=
  ⟨(claim_C4_timeRange [e10, e20, e30] _ (by decide)).trans (by decide),
   (claim_C4_timeRange [e10, e20, e30] _ (by decide)).trans (by decide),
   (claim_C4_timeRange [e10, e20, e30] _ (by decide)).trans (by decide),
   (claim_C4_timeRange [e10, e20, e30] _ (by decide)).trans (by decide)⟩

/-- C6: whatever the store state and the (possibly absent) filters, a
successful findAll result is sorted non-decreasing by start time. -/
theorem claim_C6_sorted (dir : List DirEntry)
    (filters : Option SessionsFilters) (l : List Session)
    (h : FindAllSessions dir filters = .ok l) :
    l.Pairwise fun a b => timeLe a.startTime b.startTime = true := by
  obtain ⟨sessions, rfl⟩ := FindAllSessions_ok_shape h
  exact sortSessions_sorted sessions

theorem claim_C6_sorted_witness :
    FindAllSessions [e30, e10, e20] none =
      .ok [sessionAt "a" 10 "P", sessionAt "b" 20 "P", sessionAt "c" 30 "P"] ∧
    ([sessionAt "a" 10 "P", sessionAt "b" 20 "P",
      sessionAt "c" 30 "P"] : List Session).Pairwise
      (fun a b => timeLe a.startTime b.startTime = true) :=
  ⟨by decide, claim_C6_sorted [e30, e10, e20] none _ (by decide)⟩

/-- C8: filename decoding splits on dash and fails unless the split has
exactly three parts; it fails when the third part (with any `.json` suffix
stripped) does not parse as a base-10 integer; and the filename encoded
from an id containing a literal dash never decodes. -/
theorem claim_C8_decode :
    (∀ name : List Char, (splitChars name).length ≠ 3 →
      parseSessionFileName name = .error .invalidFilename) ∧
    (∀ name a b c : List Char, splitChars name = [a, b, c] →
      goParseInt64 (trimSuffixJson c) = none →
      parseSessionFileName name = .error .invalidFilename) ∧
    (∀ sf : SessionFilename, '-' ∈ sf.id.data →
      parseSessionFileName sf.toFileName = .error .invalidFilename) := by
  refine ⟨parseSessionFileName_not_three, ?_, parse_toFileName_dash⟩
  intro name a b c hsplit hbad
  rw [parseSessionFileName_three name a b c hsplit, hbad]

theorem claim_C8_decode_witness :
    parseSessionFileName ('a' :: 'b' :: jsonSuffix) =
      .error .invalidFilename ∧
    parseSessionFileName ('a' :: '-' :: 'b' :: '-' :: 'x' :: jsonSuffix) =
      .error .invalidFilename ∧
    parseSessionFileName
        (SessionFilename.toFileName ⟨⟨5, 0⟩, "a-b", "P"⟩) =
      .error .invalidFilename :=
  ⟨claim_C8_decode.1 ('a' :: 'b' :: jsonSuffix) (by decide),
   claim_C8_decode.2.1 ('a' :: '-' :: 'b' :: '-' :: 'x' :: jsonSuffix)
     ['a'] ['b'] ('x' :: jsonSuffix) (by decide) (by decide),
   claim_C8_decode.2.2 ⟨⟨5, 0⟩, "a-b", "P"⟩ (by decide)⟩

/-- C1 counterexample: saving a session whose start time has a nonzero
sub-second part and reading it back by id returns the session unchanged —
including the sub-second part, because the body is the lossless
serialization and findById deserializes the body. The claim's "startTime
truncated to whole seconds" fails at this input (only the filename
truncates). -/
theorem claim_C1_counterexample :
    FindById (Save [] ⟨"id1", ⟨100, 500⟩, "Flow", ["t"]⟩).2 "id1" =
      .ok (some ⟨"id1", ⟨100, 500⟩, "Flow", ["t"]⟩) ∧
    (⟨"id1", ⟨100, 500⟩, "Flow", ["t"]⟩ : Session) ≠
      truncateSession ⟨"id1", ⟨100, 500⟩, "Flow", ["t"]⟩ :=
  ⟨by decide, by decide⟩

/-- C1 (amended): for a session whose id contains no dash and whose start
time is a nonnegative `int64` second count, over a store whose non-directory
entries decode to ids different from the session's id and whose entries do
not already occupy the encoded name, save followed by findById returns a
session equal to the saved one in ALL fields — including the sub-second
part of startTime, since the file body is the lossless serialization; only
the filename's timestamp component truncates to whole seconds. -/
theorem claim_C1_roundtrip (s : Session) (dir : List DirEntry)
    (hid : '-' ∉ s.id.data)
    (h0 : 0 ≤ s.startTime.sec) (hlt : s.startTime.sec < 2 ^ 63)
    (hother : ∀ e ∈ dir, e.isDir = false →
      parsesOk e.name = true ∧ decodedId e.name ≠ some s.id)
    (hname : ∀ e ∈ dir, e.name ≠ getSessionFileName s) :
    (Save dir s).1 = none ∧
    FindById (Save dir s).2 s.id = .ok (some s) := by
  rw [Save_fresh dir s hname]
  refine ⟨rfl, ?_⟩
  rw [FindById_append dir _ s.id hother]
  exact FindById_single rfl
    (parse_toFileName ⟨s.startTime, s.id, s.project⟩ hid h0 hlt) rfl rfl

theorem claim_C1_roundtrip_witness :
    (Save [e10] (sessionAt "z" 30 "Flow")).1 = none ∧
    FindById (Save [e10] (sessionAt "z" 30 "Flow")).2 "z" =
      .ok (some (sessionAt "z" 30 "Flow")) :=
  claim_C1_roundtrip (sessionAt "z" 30 "Flow") [e10]
    (by decide) (by decide) (by decide) (by decide) (by decide)

/-- C3: querying the most recent session first, start fails with
SessionAlreadyStarted and leaves the directory untouched when that session
is still active; otherwise it succeeds, appends exactly one new file, and
returns a session made of the generated id, the clock's now and the
command's project and tags. -/
theorem claim_C3_start (dir : List DirEntry) (cmd : StartCommand)
    (genId : String) (now : Time) (active : Session → Bool) :
    (∀ s, FindLastSession dir = .ok (some s) → active s = true →
      start dir cmd genId now active = (.error .alreadyStarted, dir)) ∧
    ((FindLastSession dir = .ok none ∨
      (∃ s, FindLastSession dir = .ok (some s) ∧ active s = false)) →
     (∀ e ∈ dir,
        e.name ≠ getSessionFileName ⟨genId, now, cmd.project, cmd.tags⟩) →
     start dir cmd genId now active =
       (.ok ⟨genId, now, cmd.project, cmd.tags⟩,
        dir ++ [⟨getSessionFileName ⟨genId, now, cmd.project, cmd.tags⟩,
          false, serialize ⟨genId, now, cmd.project, cmd.tags⟩⟩])) := by
  constructor
  · intro s hlast hact
    rw [start.eq_def, hlast]
    dsimp only [Option.elim]
    rw [if_pos hact]
  · intro hfree hfresh
    have hsave := Save_fresh dir ⟨genId, now, cmd.project, cmd.tags⟩ hfresh
    rcases hfree with hnone | ⟨s, hsome, hinact⟩
    · rw [start.eq_def, hnone]
      dsimp only [Option.elim]
      rw [if_neg (by simp), hsave]
    · rw [start.eq_def, hsome]
      dsimp only [Option.elim]
      rw [if_neg (by simp [hinact]), hsave]

theorem claim_C3_start_witness :
    start [e20] ⟨"Flow", ["t"]⟩ "z" ⟨30, 0⟩ (fun _ => true) =
      (.error .alreadyStarted, [e20]) ∧
    start [] ⟨"Flow", ["t"]⟩ "z" ⟨30, 0⟩ (fun _ => true) =
      (.ok ⟨"z", ⟨30, 0⟩, "Flow", ["t"]⟩,
       [⟨getSessionFileName ⟨"z", ⟨30, 0⟩, "Flow", ["t"]⟩, false,
         serialize ⟨"z", ⟨30, 0⟩, "Flow", ["t"]⟩⟩]) :=
  ⟨(claim_C3_start [e20] ⟨"Flow", ["t"]⟩ "z" ⟨30, 0⟩ (fun _ => true)).1
      (sessionAt "b" 20 "P") (by decide) rfl,
   (claim_C3_start [] ⟨"Flow", ["t"]⟩ "z" ⟨30, 0⟩ (fun _ => true)).2
      (Or.inl (by decide)) (by decide)⟩

/-- C7: deleting an id with no matching decodable file returns NotFound and
leaves the listing unchanged; deleting an id whose unique match is a file
removes exactly that one file, after which findById returns not-found. -/
theorem claim_C7_delete (dir : List DirEntry) (id : String)
    (hparse : ∀ e ∈ dir, e.isDir = false → parsesOk e.name = true) :
    ((∀ e ∈ dir, e.isDir = false → decodedId e.name ≠ some id) →
      Delete dir id = (some (.notFound id), dir)) ∧
    (∀ pre e post, dir = pre ++ e :: post → e.isDir = false →
      decodedId e.name = some id →
      (∀ x ∈ pre ++ post, x.isDir = false → decodedId x.name ≠ some id) →
      Delete dir id = (none, pre ++ post) ∧
      FindById (pre ++ post) id = .ok none) := by
  constructor
  · intro hno
    exact Delete_notFound dir id fun e he hd => ⟨hparse e he hd, hno e he hd⟩
  · intro pre e post hdir hd hm hunique
    subst hdir
    have hpre : ∀ x ∈ pre, x.isDir = false →
        parsesOk x.name = true ∧ decodedId x.name ≠ some id := by
      intro x hx hxd
      exact ⟨hparse x (List.mem_append_left _ hx) hxd,
             hunique x (List.mem_append_left _ hx) hxd⟩
    have hpost : ∀ x ∈ post, x.isDir = false →
        parsesOk x.name = true ∧ decodedId x.name ≠ some id := by
      intro x hx hxd
      exact ⟨hparse x (List.mem_append_right _ (List.mem_cons_of_mem e hx)) hxd,
             hunique x (List.mem_append_right _ hx) hxd⟩
    refine ⟨Delete_found pre post e id hpre hd hm, ?_⟩
    apply FindById_none
    intro x hx hxd
    rcases List.mem_append.mp hx with hxp | hxq
    · exact hpre x hxp hxd
    · exact hpost x hxq hxd

theorem claim_C7_delete_witness :
    Delete [e10, e20] "nope" = (some (.notFound "nope"), [e10, e20]) ∧
    Delete [e10, e20] "b" = (none, [e10]) ∧
    FindById [e10] "b" = .ok none :=
  ⟨(claim_C7_delete [e10, e20] "nope" (by decide)).1 (by decide),
   ((claim_C7_delete [e10, e20] "b" (by decide)).2 [e10] e20 [] rfl rfl
      (by decide) (by decide)).1,
   ((claim_C7_delete [e10, e20] "b" (by decide)).2 [e10] e20 [] rfl rfl
      (by decide) (by decide)).2⟩

def c9e1 : DirEntry := entryOf (sessionAt "x" 30 "A")

def c9e2 : DirEntry := entryOf (sessionAt "y" 10 "B")

def c9f : SessionsFilters := ⟨⟨none, some ⟨20, 0⟩⟩, "A"⟩

/-- C9 counterexample: with both a project filter and a time-range filter
supplied, the first filter findAll applies is the TIME-RANGE filter: its
output differs from the project filter's output on this listing, so the
claim's "project filter first" fails. -/
theorem claim_C9_counterexample :
    findAllFirstFilter [c9e1, c9e2] c9f =
      filterByTimeRange [c9e1, c9e2] c9f.timerange ∧
    findAllFirstFilter [c9e1, c9e2] c9f = .ok [c9e2] ∧
    filterByProject [c9e1, c9e2] c9f.project = .ok [c9e1] ∧
    findAllFirstFilter [c9e1, c9e2] c9f ≠
      filterByProject [c9e1, c9e2] c9f.project :=
  ⟨by decide, by decide, by decide, by decide⟩

/-- C9 (amended): with both filters supplied, findAll applies the
TIME-RANGE filter first and the project filter second — both at the
filename level, before any file body is read: the filter stage precedes the
read loop, and the surviving entries are exactly the entries passing both
filename predicates. -/
theorem claim_C9_filterOrder (dir : List DirEntry) (f : SessionsFilters)
    (hts : f.timerange.isZero = false) (hp : f.project ≠ "")
    (hparse : ∀ e ∈ dir, parsesOk e.name = true) :
    findAllFirstFilter dir f = filterByTimeRange dir f.timerange ∧
    findAllApplyFilters dir f =
      .ok (dir.filter fun e =>
        projMatch e f.project && timeMatch e f.timerange) ∧
    FindAllSessions dir (some f) =
      (match findAllApplyFilters dir f with
       | .error err => .error err
       | .ok fis =>
         match readSessions fis with
         | .error err => .error err
         | .ok sessions => .ok (sortSessions sessions)) := by
  refine ⟨by rw [findAllFirstFilter, if_pos hts], ?_, ?_⟩
  · rw [findAllApplyFilters.eq_def, if_neg (by simp [hts]),
      filterByTimeRange_eq dir f.timerange hparse]
    dsimp only
    rw [if_neg hp, filterByProject_eq _ f.project
      (fun e he => hparse e (List.mem_of_mem_filter he)), List.filter_filter]
  · rw [FindAllSessions.eq_def]

theorem claim_C9_filterOrder_witness :
    findAllFirstFilter [c9e1, c9e2] c9f =
      filterByTimeRange [c9e1, c9e2] c9f.timerange ∧
    findAllApplyFilters [c9e1, c9e2] c9f =
      .ok (([c9e1, c9e2] : List DirEntry).filter fun e =>
        projMatch e c9f.project && timeMatch e c9f.timerange) ∧
    FindAllSessions [c9e1, c9e2] (some c9f) =
      (match findAllApplyFilters [c9e1, c9e2] c9f with
       | .error err => .error err
       | .ok fis =>
         match readSessions fis with
         | .error err => .error err
         | .ok sessions => .ok (sortSessions sessions)) :=
  claim_C9_filterOrder [c9e1, c9e2] c9f (by decide) (by decide) (by decide)

def subdirEntry : DirEntry := ⟨'s' :: 'u' :: 'b' :: [], true, .corrupt⟩

/-- C10: a subdirectory whose name does not decode is parsed by both
filename filters (they never skip directory entries), so any findAll call
with a project or time-range filter fails on such a listing, while findAll
with no filters skips the subdirectory in its read loop and succeeds. -/
theorem claim_C10_subdir (dir : List DirEntry) (d : DirEntry)
    (f : SessionsFilters) (hd : d ∈ dir) (hdir : d.isDir = true)
    (hbad : parsesOk d.name = false)
    (hbody : ∀ e ∈ dir, e.isDir = false → deserialize e.content ≠ none) :
    ((f.timerange.isZero = false ∨ f.project ≠ "") →
      ∃ err, FindAllSessions dir (some f) = .error err) ∧
    (∃ l, FindAllSessions dir none = .ok l) := by
  constructor
  · intro hsup
    obtain ⟨err, herr⟩ :=
      findAllApplyFilters_error dir f hsup ⟨d, hd, hbad⟩
    refine ⟨err, ?_⟩
    rw [FindAllSessions.eq_def]
    dsimp only
    rw [herr]
  · obtain ⟨l, hl⟩ := readSessions_ok dir hbody
    refine ⟨sortSessions l, ?_⟩
    rw [FindAllSessions.eq_def]
    dsimp only
    rw [hl]

theorem claim_C10_subdir_witness :
    ((({ project := "P" } : SessionsFilters).timerange.isZero = false ∨
      ({ project := "P" } : SessionsFilters).project ≠ "") →
      ∃ err, FindAllSessions [subdirEntry, e10]
        (some { project := "P" }) = .error err) ∧
    (∃ l, FindAllSessions [subdirEntry, e10] none = .ok l) :=
  claim_C10_subdir [subdirEntry, e10] subdirEntry { project := "P" }
    (by decide) rfl (by decide) (by decide)

def c5Entry : DirEntry := ⟨'a' :: '-' :: 'b' :: '-' :: '5' :: [], false,
  serialize (sessionAt "a" 5 "b")⟩

/-- C5 counterexample: a store holding one decodable session file whose name
is not the canonical re-encoding (the `.json` suffix is missing): findLast
decodes the name, re-encodes the decoded record to `a-b-5.json`, fails to
read that non-existent name, and errors — it does not return the stored
session with the maximal decoded start time as the claim states. -/
theorem claim_C5_counterexample :
    parsesOk c5Entry.name = true ∧
    deserialize c5Entry.content = some (sessionAt "a" 5 "b") ∧
    FindLastSession [c5Entry] = .error .readError :=
  ⟨by decide, by decide, by decide⟩

/-- C5 (amended): on a store state whose non-directory filenames are
canonical encodings (re-encoding the decoded record yields the name back —
true of every state written by save), with the real-directory invariant of
distinct names and deserializable bodies, findLast reads exactly the file
whose decoded start time is maximal among all stored files and returns its
deserialized content; on a listing with no files it returns none. -/
theorem claim_C5_findLast (dir : List DirEntry)
    (hnd : (dir.map DirEntry.name).Nodup)
    (hcanon : ∀ e ∈ dir, e.isDir = false → canonicalName e.name = true)
    (hbody : ∀ e ∈ dir, e.isDir = false → deserialize e.content ≠ none) :
    ((∃ e ∈ dir, e.isDir = false) →
      ∃ e ∈ dir, e.isDir = false ∧
        FindLastSession dir = .ok (deserialize e.content) ∧
        ∀ x ∈ dir, x.isDir = false →
          timeLe (decodedTime x.name) (decodedTime e.name) = true) ∧
    ((∀ e ∈ dir, e.isDir = true) → FindLastSession dir = .ok none) := by
  have hparse : ∀ e ∈ dir, e.isDir = false → parsesOk e.name = true :=
    fun e he hd => parsesOk_of_canonical (hcanon e he hd)
  obtain ⟨fns, hok, hsound, hcomplete, hempty⟩ := collectFileNames_ok dir hparse
  constructor
  · rintro ⟨e0, he0, hd0⟩
    obtain ⟨sf0, hp0⟩ := parsesOk_true (hparse e0 he0 hd0)
    have hsf0 : sf0 ∈ fns := hcomplete e0 he0 hd0 sf0 hp0
    rcases hsort : sortFileNamesDesc fns with _ | ⟨last, t⟩
    · exfalso
      have hnil : fns = [] := sortFileNamesDesc_eq_nil hsort
      subst hnil
      simp at hsf0
    · have hlast_mem : last ∈ fns := by
        have hmem : last ∈ sortFileNamesDesc fns := by
          rw [hsort]
          simp
        exact mem_sortFileNamesDesc.mp hmem
      obtain ⟨e, he, hd, hpe⟩ := hsound last hlast_mem
      obtain ⟨sfc, hpc, hcn⟩ := canonicalName_true (hcanon e he hd)
      have hname : last.toFileName = e.name := by
        rw [hpe] at hpc
        injection hpc with hinj
        rw [hinj]
        exact hcn
      refine ⟨e, he, hd, ?_, ?_⟩
      · rw [FindLastSession.eq_def, hok]
        dsimp only
        rw [hsort]
        dsimp only
        rw [hname, readFile_mem hnd he hd]
        dsimp only
        rcases hc : deserialize e.content with _ | s
        · exact absurd hc (hbody e he hd)
        · rfl
      · intro x hx hxd
        obtain ⟨sfx, hpx⟩ := parsesOk_true (hparse x hx hxd)
        have hmemx : sfx ∈ fns := hcomplete x hx hxd sfx hpx
        rw [decodedTime_of_parse hpx, decodedTime_of_parse hpe]
        exact sortFileNamesDesc_head_max hsort sfx hmemx
  · intro halldir
    have hfns : fns = [] := by
      rcases hq : fns with _ | ⟨sf, rest⟩
      · rfl
      · exfalso
        obtain ⟨e, he, hd, _⟩ := hsound sf (by rw [hq]; simp)
        rw [halldir e he] at hd
        cases hd
    subst hfns
    rw [FindLastSession.eq_def, hok]
    rfl

theorem claim_C5_findLast_witness :
    ((∃ e ∈ [e20, e10], e.isDir = false) →
      ∃ e ∈ [e20, e10], e.isDir = false ∧
        FindLastSession [e20, e10] = .ok (deserialize e.content) ∧
        ∀ x ∈ [e20, e10], x.isDir = false →
          timeLe (decodedTime x.name) (decodedTime e.name) = true) ∧
    ((∀ e ∈ [e20, e10], e.isDir = true) →
      FindLastSession [e20, e10] = .ok none) :=
  claim_C5_findLast [e20, e10] (by decide) (by decide) (by decide)

end Flow
